import Mathlib

/-!
Shallow embedding of the `ppl` propositional-logic package
(`src/ppl/parser.py`, `src/ppl/eval.py`) and proofs about it.

Python exceptions are modelled by `Except Err`; Python `int` by `Int`;
Python strings by `String` / `List Char`.
-/

deriving instance DecidableEq for Except

namespace Ppl

/-- The error outcomes the embedded code can produce:
`valueError` models Python `ValueError` (with its message),
`keyError` models the `KeyError` raised by a failed mapping lookup
(`interpr[e]` in `evaluate`, i.e. an unbound variable),
`lexerError` models funcparserlib's `LexerError` on an unrecognized character,
`noParse` models funcparserlib's `NoParseError`, and
`outOfFuel` is the embedding's fuel-exhaustion marker for the
recursive-descent parser (never produced with adequate fuel). -/
inductive Err
  | valueError (msg : String)
  | keyError (s : Int)
  | lexerError (c : Char)
  | noParse
  | outOfFuel
deriving DecidableEq, Repr

/-- `string.ascii_uppercase`. -/
def asciiUppercase : String := "ABCDEFGHIJKLMNOPQRSTUVWXYZ"

/-- `needle` occurs at the start of `hay` (Python substring match at one position). -/
def leadsWith : List Char → List Char → Bool
  | [], _ => true
  | _ :: _, [] => false
  | a :: as, b :: bs => a == b && leadsWith as bs

/-- Helper for Python `str.find`: first index at or after `i` where the needle
occurs in `hay`, and `-1` when it never does. -/
def findSubAux (needle : List Char) : List Char → Int → Int
  | [], i => if leadsWith needle [] then i else -1
  | c :: t, i => if leadsWith needle (c :: t) then i else findSubAux needle t (i + 1)

/-- Python `haystack.find(needle)`: index of the first occurrence, `-1` if absent
(it returns `-1` rather than raising, unlike `str.index`). -/
def strFind (haystack needle : String) : Int :=
  findSubAux needle.data haystack.data 0

/-- Python `str.upper` restricted to ASCII case mapping. -/
def strUpper (s : String) : String :=
  ⟨s.data.map Char.toUpper⟩

/-- `Symbol` is an `int` subclass in the source: a variable identified by its
alphabetic position. -/
abbrev Symbol := Int

/-- `Symbol.from_letter`: `string.ascii_uppercase.find(letter.upper())`.
`str.find` returns `-1` when the letter is out of range (and raises no
`IndexError`, so the `except IndexError: raise ValueError` branch in the
source is dead code); the function therefore always returns, possibly `-1`. -/
def Symbol.fromLetter (letter : String) : Symbol :=
  strFind asciiUppercase (strUpper letter)

/-- The unary operator type `_UnaryOp = Literal['!']`. -/
inductive UnaryOp
  | bang
deriving DecidableEq, Repr

/-- The binary operator type `_BinaryOp = Literal['&', '|', '~', '=']`:
conjunction `&`, disjunction `|`, material conditional `~`, biconditional `=`. -/
inductive BinaryOp
  | conj
  | disj
  | cond
  | iff
deriving DecidableEq, Repr

/-- `Expr = Union[UnaryExpr, BinaryExpr, Symbol]`: the expression tree.
The `op` fields carry the `Literal` types of the source, so the
`raise RuntimeError` branches of `evaluate`/`get_variables` (defensive checks
for values outside those types) are unrepresentable here. -/
inductive Expr
  | symbol (s : Symbol)
  | unaryExpr (op : UnaryOp) (value : Expr)
  | binaryExpr (op : BinaryOp) (left : Expr) (right : Expr)
deriving DecidableEq, Repr

/-- The traversal order of the `visit` helper of `get_variables`: each
variable occurrence in depth-first left-to-right order. -/
def visitVariables : Expr → List Int
  | .symbol s => [s]
  | .unaryExpr _ v => visitVariables v
  | .binaryExpr _ l r => visitVariables l ++ visitVariables r

/-- `get_variables`: the set of variables occurring in an expression
(the source accumulates the visited occurrences into a Python `set`). -/
def getVariables (expr : Expr) : Finset Int :=
  (visitVariables expr).toFinset

/-- Insert into an ascending list, keeping it ascending. -/
def insertAsc (x : Int) : List Int → List Int
  | [] => [x]
  | y :: t => if x ≤ y then x :: y :: t else y :: insertAsc x t

/-- Python's `sorted` on integers: the ascending rearrangement
(insertion sort; Python's sort is also comparison-based and ascending). -/
def sortedPy : List Int → List Int
  | [] => []
  | x :: t => insertAsc x (sortedPy t)

/-- `tuple(sorted(get_variables(expr)))`: the ascending duplicate-free list
of the expression's variables. The Python `set` value is modelled by
deduplicating the visit-order occurrence list, which `sorted` then arranges
ascending — the same list `sorted` produces from the set. -/
def sortedVars (expr : Expr) : List Int :=
  sortedPy (visitVariables expr).dedup

/-- `get_all_inputs(n)`: all boolean `n`-tuples, in generator order
(`(False,)+sub` then `(True,)+sub` for each recursive `sub`), or
`ValueError` when `n` is not positive. -/
def getAllInputs : Nat → Except Err (List (List Bool))
  | 0 => .error (.valueError "number of variables must be a positive number")
  | 1 => .ok [[false], [true]]
  | n + 2 => do
    let sub ← getAllInputs (n + 1)
    .ok (sub.flatMap fun s => [false :: s, true :: s])

/-- The pure value of `get_all_inputs` on a positive count (proof helper;
`getAllInputs` is the faithful embedding). -/
def allInputs : Nat → List (List Bool)
  | 0 => []
  | 1 => [[false], [true]]
  | n + 2 => (allInputs (n + 1)).flatMap fun s => [false :: s, true :: s]

/-- `Interpretation = Mapping[Symbol, bool]`, as an association list. -/
def Interpretation := List (Int × Bool)

/-- `evaluate(expr, interpr)`: recursive evaluation (`eval_subexpr` in the
source). A variable absent from the interpretation raises `KeyError` at
`interpr[e]`; for a binary node both children are evaluated before the
operator is applied. -/
def evaluate (expr : Expr) (interpr : Interpretation) : Except Err Bool :=
  match expr with
  | .symbol s =>
    match List.lookup s (interpr : List (Int × Bool)) with
    | some b => .ok b
    | none => .error (.keyError s)
  | .unaryExpr .bang v => do
    let x ← evaluate v interpr
    .ok (!x)
  | .binaryExpr op l r => do
    let left ← evaluate l interpr
    let right ← evaluate r interpr
    match op with
    | .conj => .ok (left && right)
    | .disj => .ok (left || right)
    | .cond => .ok (!(left && !right))
    | .iff => .ok (left == right)

/-- `TruthTable`: the sorted variable tuple and the insertion-ordered dict
from assignment tuples to results (modelled as an association list in
insertion order). -/
structure TruthTable where
  vars : List Int
  data : List (List Bool × Bool)
deriving DecidableEq, Repr

/-- The dict-building loop of `TruthTable.from_expr`:
`tt.data[subinput] = evaluate(expr, {s: v for s, v in zip(tt.variables, subinput)})`
for each `subinput`, in order. -/
def buildData (expr : Expr) (vars : List Int) :
    List (List Bool) → Except Err (List (List Bool × Bool))
  | [] => .ok []
  | subinput :: rest => do
    let v ← evaluate expr (vars.zip subinput)
    let tail ← buildData expr vars rest
    .ok ((subinput, v) :: tail)

/-- `TruthTable.from_expr`: sort the variable set, enumerate all inputs,
evaluate the expression under each zipped assignment. -/
def TruthTable.fromExpr (expr : Expr) : Except Err TruthTable := do
  let vars := sortedVars expr
  let inputs ← getAllInputs vars.length
  let data ← buildData expr vars inputs
  .ok ⟨vars, data⟩

/-- The whitespace class of Python's regex `\s` on `str` (the `ws` token spec). -/
def pyIsSpace (c : Char) : Bool :=
  c ∈ [' ', '\t', '\n', '\r', '\x0b', '\x0c', '\x1c', '\x1d', '\x1e', '\x1f',
    '\x85', '\xa0', ' ', ' ', ' ', ' ', ' ', ' ',
    ' ', ' ', ' ', ' ', ' ', ' ', ' ',
    ' ', ' ', ' ', '　']

/-- The `symbol` token spec `[A-Za-z]`. -/
def isAsciiLetter (c : Char) : Bool :=
  ('A' ≤ c && c ≤ 'Z') || ('a' ≤ c && c ≤ 'z')

/-- The `op` token spec `[!&|~=()]`. -/
def isOpChar (c : Char) : Bool :=
  c ∈ ['!', '&', '|', '~', '=', '(', ')']

/-- A funcparserlib `Token`: its spec name and the matched text. -/
structure Token where
  type : String
  value : String
deriving DecidableEq, Repr

/-- The scanning loop of `make_tokenizer` combined with the `ws` filter of
`tokenize`: runs of whitespace produce `ws` tokens that `tokenize` drops, so
they are skipped here; an unmatched character raises `LexerError`. -/
def tokChars : List Char → Except Err (List Token)
  | [] => .ok []
  | c :: rest =>
    if pyIsSpace c then
      tokChars rest
    else if isAsciiLetter c then do
      let ts ← tokChars rest
      .ok (Token.mk "symbol" (String.singleton c) :: ts)
    else if isOpChar c then do
      let ts ← tokChars rest
      .ok (Token.mk "op" (String.singleton c) :: ts)
    else
      .error (.lexerError c)

/-- `tokenize(s)`: the token list with `ws` tokens filtered out, or a
`LexerError` at the first unrecognized character. -/
def tokenize (s : String) : Except Err (List Token) :=
  tokChars s.data

/-- funcparserlib's ordered choice `p1 | p2`: on a parse failure of the first
alternative, retry the second from the same position. Fuel exhaustion of the
embedding is propagated, never caught. -/
def orElseP {α : Type} (r : Except Err α) (f : Unit → Except Err α) :
    Except Err α :=
  match r with
  | .ok v => .ok v
  | .error .outOfFuel => .error .outOfFuel
  | .error _ => f ()

/-- The parser `tok('symbol') >> Symbol.from_letter`. -/
def parseSymbolTok : List Token → Except Err (Expr × List Token)
  | Token.mk "symbol" v :: rest => .ok (.symbol (Symbol.fromLetter v), rest)
  | _ => .error .noParse

/-- `_to_binary_expr`: left fold of an operand and a `(op, operand)` chain
into nested `BinaryExpr` nodes. -/
def toBinaryExpr : Expr → List (BinaryOp × Expr) → Expr
  | first, [] => first
  | first, (op, e) :: rest => toBinaryExpr (.binaryExpr op first e) rest

mutual

/-- `primary.define(symbol | neg | paren)`. -/
def parsePrimary : Nat → List Token → Except Err (Expr × List Token)
  | 0, _ => .error .outOfFuel
  | fuel + 1, ts =>
    orElseP (parseSymbolTok ts) fun _ =>
      orElseP (parseNeg fuel ts) fun _ =>
        parseParen fuel ts

/-- `neg = _op('!') + primary >> _to_unary_expr`. -/
def parseNeg : Nat → List Token → Except Err (Expr × List Token)
  | 0, _ => .error .outOfFuel
  | fuel + 1, ts =>
    match ts with
    | Token.mk "op" "!" :: rest => do
      let (e, ts2) ← parsePrimary fuel rest
      .ok (.unaryExpr .bang e, ts2)
    | _ => .error .noParse

/-- `paren = -_op('(') + expr + -_op(')')`. -/
def parseParen : Nat → List Token → Except Err (Expr × List Token)
  | 0, _ => .error .outOfFuel
  | fuel + 1, ts =>
    match ts with
    | Token.mk "op" "(" :: rest => do
      let (e, ts2) ← parseExpr fuel rest
      match ts2 with
      | Token.mk "op" ")" :: ts3 => .ok (e, ts3)
      | _ => .error .noParse
    | _ => .error .noParse

/-- `many(_op('&') + primary)`: greedy repetition, backtracking the last
failed attempt. -/
def parseConjTail : Nat → List Token →
    Except Err (List (BinaryOp × Expr) × List Token)
  | 0, _ => .error .outOfFuel
  | fuel + 1, ts =>
    match ts with
    | Token.mk "op" "&" :: rest =>
      match parsePrimary fuel rest with
      | .ok (e, ts2) => do
        let (acc, ts3) ← parseConjTail fuel ts2
        .ok ((BinaryOp.conj, e) :: acc, ts3)
      | .error .outOfFuel => .error .outOfFuel
      | .error _ => .ok ([], ts)
    | _ => .ok ([], ts)

/-- `conj = primary + many(_op('&') + primary) >> _to_binary_expr`. -/
def parseConj : Nat → List Token → Except Err (Expr × List Token)
  | 0, _ => .error .outOfFuel
  | fuel + 1, ts => do
    let (first, ts1) ← parsePrimary fuel ts
    let (rest, ts2) ← parseConjTail fuel ts1
    .ok (toBinaryExpr first rest, ts2)

/-- `many(_op('|') + conj)`. -/
def parseDisjTail : Nat → List Token →
    Except Err (List (BinaryOp × Expr) × List Token)
  | 0, _ => .error .outOfFuel
  | fuel + 1, ts =>
    match ts with
    | Token.mk "op" "|" :: rest =>
      match parseConj fuel rest with
      | .ok (e, ts2) => do
        let (acc, ts3) ← parseDisjTail fuel ts2
        .ok ((BinaryOp.disj, e) :: acc, ts3)
      | .error .outOfFuel => .error .outOfFuel
      | .error _ => .ok ([], ts)
    | _ => .ok ([], ts)

/-- `disj = conj + many(_op('|') + conj) >> _to_binary_expr`. -/
def parseDisj : Nat → List Token → Except Err (Expr × List Token)
  | 0, _ => .error .outOfFuel
  | fuel + 1, ts => do
    let (first, ts1) ← parseConj fuel ts
    let (rest, ts2) ← parseDisjTail fuel ts1
    .ok (toBinaryExpr first rest, ts2)

/-- `many(_op('~') + disj)`. -/
def parseMatcondTail : Nat → List Token →
    Except Err (List (BinaryOp × Expr) × List Token)
  | 0, _ => .error .outOfFuel
  | fuel + 1, ts =>
    match ts with
    | Token.mk "op" "~" :: rest =>
      match parseDisj fuel rest with
      | .ok (e, ts2) => do
        let (acc, ts3) ← parseMatcondTail fuel ts2
        .ok ((BinaryOp.cond, e) :: acc, ts3)
      | .error .outOfFuel => .error .outOfFuel
      | .error _ => .ok ([], ts)
    | _ => .ok ([], ts)

/-- `matcond = disj + many(_op('~') + disj) >> _to_binary_expr`. -/
def parseMatcond : Nat → List Token → Except Err (Expr × List Token)
  | 0, _ => .error .outOfFuel
  | fuel + 1, ts => do
    let (first, ts1) ← parseDisj fuel ts
    let (rest, ts2) ← parseMatcondTail fuel ts1
    .ok (toBinaryExpr first rest, ts2)

/-- `many(_op('=') + matcond)`. -/
def parseBicondTail : Nat → List Token →
    Except Err (List (BinaryOp × Expr) × List Token)
  | 0, _ => .error .outOfFuel
  | fuel + 1, ts =>
    match ts with
    | Token.mk "op" "=" :: rest =>
      match parseMatcond fuel rest with
      | .ok (e, ts2) => do
        let (acc, ts3) ← parseBicondTail fuel ts2
        .ok ((BinaryOp.iff, e) :: acc, ts3)
      | .error .outOfFuel => .error .outOfFuel
      | .error _ => .ok ([], ts)
    | _ => .ok ([], ts)

/-- `bicond = matcond + many(_op('=') + matcond) >> _to_binary_expr`. -/
def parseBicond : Nat → List Token → Except Err (Expr × List Token)
  | 0, _ => .error .outOfFuel
  | fuel + 1, ts => do
    let (first, ts1) ← parseMatcond fuel ts
    let (rest, ts2) ← parseBicondTail fuel ts1
    .ok (toBinaryExpr first rest, ts2)

/-- `expr.define(bicond)`. -/
def parseExpr : Nat → List Token → Except Err (Expr × List Token)
  | 0, _ => .error .outOfFuel
  | fuel + 1, ts => parseBicond fuel ts

end

/-- `parse(tokens)`: run `document = expr + -finished` on the token sequence;
`finished` fails when tokens remain. The fuel bound is generous: the
recursion depth of the combinator grammar is linear in the token count. -/
def parse (tokens : List Token) : Except Err Expr :=
  match parseExpr (8 * tokens.length + 8) tokens with
  | .ok (e, []) => .ok e
  | .ok (_, _ :: _) => .error .noParse
  | .error e => .error e

/-- Read an assignment tuple as a binary number with the FIRST component as
the least significant bit (measuring function for row-order statements). -/
def rowValue : List Bool → Nat
  | [] => 0
  | b :: t => (cond b 1 0) + 2 * rowValue t

/-- Read an assignment tuple as a binary number with the FIRST component as
the most significant bit, as `values_key` in `ui.py` does. -/
def msbValue (l : List Bool) : Nat :=
  l.foldl (fun acc b => 2 * acc + cond b 1 0) 0

/-- The token a single non-whitespace character of the lexer's alphabet
produces (statement-side description of `tokenize`'s per-character output). -/
def tokenOfChar (c : Char) : Token :=
  if isAsciiLetter c then Token.mk "symbol" (String.singleton c)
  else Token.mk "op" (String.singleton c)

/-- The interpretation binds every variable of the expression (the premise of
the evaluator's success contract). -/
def bindsAll (interpr : Interpretation) (expr : Expr) : Prop :=
  ∀ v ∈ getVariables expr, (List.lookup v (interpr : List (Int × Bool))).isSome = true

instance (interpr : Interpretation) (expr : Expr) :
    Decidable (bindsAll interpr expr) :=
  inferInstanceAs (Decidable (∀ v ∈ getVariables expr, _))

/-! ### Lemmas about the assignment enumeration -/

@[simp]
theorem ok_bind_reduce {α β : Type} (a : α) (f : α → Except Err β) :
    (Except.ok a : Except Err α) >>= f = f a := rfl

@[simp]
theorem error_bind_reduce {α β : Type} (er : Err) (f : α → Except Err β) :
    (Except.error er : Except Err α) >>= f = Except.error er := rfl

/-- On a positive count the generator never raises: its value is `allInputs`. -/
theorem getAllInputs_pos : ∀ n : Nat, getAllInputs (n + 1) = .ok (allInputs (n + 1))
  | 0 => rfl
  | n + 1 => by
    show (do
      let sub ← getAllInputs (n + 1)
      Except.ok (sub.flatMap fun s => [false :: s, true :: s])) = _
    rw [getAllInputs_pos n]
    rfl

theorem range_flatMap_double :
    ∀ m : Nat, (List.range m).flatMap (fun v => [2 * v, 2 * v + 1]) = List.range (2 * m) := by
  intro m
  induction m with
  | zero => rfl
  | succ k ih =>
    rw [List.range_succ, List.flatMap_append, ih, Nat.mul_succ]
    rw [List.range_succ, List.range_succ]
    simp

theorem allInputs_map_rowValue :
    ∀ n : Nat, (allInputs (n + 1)).map rowValue = List.range (2 ^ (n + 1)) := by
  intro n
  induction n with
  | zero => rfl
  | succ m ih =>
    have key : ∀ L : List (List Bool),
        (L.flatMap fun s => [false :: s, true :: s]).map rowValue
          = (L.map rowValue).flatMap fun v => [2 * v, 2 * v + 1] := by
      intro L
      induction L with
      | nil => rfl
      | cons s t iht => simp [rowValue, iht, Nat.add_comm]
    show ((allInputs (m + 1)).flatMap fun s => [false :: s, true :: s]).map rowValue = _
    rw [key, ih, range_flatMap_double]
    congr 1
    rw [pow_succ 2 (m + 1), Nat.mul_comm]

theorem length_allInputs (n : Nat) : (allInputs (n + 1)).length = 2 ^ (n + 1) := by
  have h := congrArg List.length (allInputs_map_rowValue n)
  simpa using h

theorem nodup_allInputs (n : Nat) : (allInputs (n + 1)).Nodup :=
  List.Nodup.of_map rowValue
    (by rw [allInputs_map_rowValue]; exact List.nodup_range _)

theorem mem_allInputs : ∀ n : Nat, ∀ l : List Bool, l ∈ allInputs (n + 1) ↔ l.length = n + 1 := by
  intro n
  induction n with
  | zero =>
    intro l
    show l ∈ [[false], [true]] ↔ l.length = 1
    rw [List.mem_cons, List.mem_cons]
    constructor
    · rintro (rfl | rfl | h)
      · rfl
      · rfl
      · exact absurd h (List.not_mem_nil l)
    · intro h
      rcases List.length_eq_one.mp h with ⟨b, rfl⟩
      cases b
      · exact Or.inl rfl
      · exact Or.inr (Or.inl rfl)
  | succ m ih =>
    intro l
    show l ∈ (allInputs (m + 1)).flatMap (fun s => [false :: s, true :: s]) ↔ _
    rw [List.mem_flatMap]
    constructor
    · rintro ⟨s, hs, hl⟩
      have hlen := (ih s).mp hs
      rw [List.mem_cons, List.mem_cons] at hl
      rcases hl with rfl | rfl | hl
      · simp [hlen]
      · simp [hlen]
      · exact absurd hl (List.not_mem_nil l)
    · intro h
      match l with
      | [] => cases h
      | b :: t =>
        have ht : t.length = m + 1 := Nat.succ_injective h
        refine ⟨t, (ih t).mpr ht, ?_⟩
        cases b
        · exact List.mem_cons_self _ _
        · exact List.mem_cons_of_mem _ (List.mem_cons_self _ _)

/-! ### Lemmas about variable discovery and sorting -/

theorem mem_getVariables (e : Expr) (v : Int) :
    v ∈ getVariables e ↔ v ∈ visitVariables e := by
  simp [getVariables, List.mem_toFinset]

theorem visitVariables_ne_nil : ∀ e : Expr, visitVariables e ≠ [] := by
  intro e
  induction e with
  | symbol s => simp [visitVariables]
  | unaryExpr op v ihv => simpa [visitVariables] using ihv
  | binaryExpr op l r ihl ihr =>
    simp only [visitVariables]
    intro h
    exact ihl (List.append_eq_nil.mp h).1

theorem getVariables_nonempty (e : Expr) : (getVariables e).Nonempty := by
  rcases List.exists_mem_of_ne_nil _ (visitVariables_ne_nil e) with ⟨v, hv⟩
  exact ⟨v, (mem_getVariables e v).mpr hv⟩

theorem mem_insertAsc (x : Int) :
    ∀ (l : List Int) (a : Int), a ∈ insertAsc x l ↔ a = x ∨ a ∈ l := by
  intro l
  induction l with
  | nil => intro a; simp [insertAsc]
  | cons y t ih =>
    intro a
    by_cases h : x ≤ y
    · simp only [insertAsc, if_pos h, List.mem_cons]
    · simp only [insertAsc, if_neg h, List.mem_cons, ih]
      tauto

theorem length_insertAsc (x : Int) :
    ∀ l : List Int, (insertAsc x l).length = l.length + 1 := by
  intro l
  induction l with
  | nil => rfl
  | cons y t ih =>
    by_cases h : x ≤ y
    · simp [insertAsc, h]
    · simp [insertAsc, h, ih]

theorem nodup_insertAsc (x : Int) :
    ∀ l : List Int, x ∉ l → l.Nodup → (insertAsc x l).Nodup := by
  intro l
  induction l with
  | nil => intro _ _; simp [insertAsc]
  | cons y t ih =>
    intro hx hnd
    rcases List.nodup_cons.mp hnd with ⟨hyt, hndt⟩
    by_cases h : x ≤ y
    · simp only [insertAsc, if_pos h]
      exact List.nodup_cons.mpr ⟨hx, hnd⟩
    · simp only [insertAsc, if_neg h]
      refine List.nodup_cons.mpr ⟨?_, ?_⟩
      · intro hy
        rcases (mem_insertAsc x t y).mp hy with rfl | hy
        · exact h le_rfl
        · exact hyt hy
      · exact ih (fun hxt => hx (List.mem_cons_of_mem _ hxt)) hndt

theorem mem_sortedPy : ∀ (l : List Int) (a : Int), a ∈ sortedPy l ↔ a ∈ l := by
  intro l
  induction l with
  | nil => intro a; simp [sortedPy]
  | cons y t ih =>
    intro a
    simp [sortedPy, mem_insertAsc, ih]

theorem length_sortedPy : ∀ l : List Int, (sortedPy l).length = l.length := by
  intro l
  induction l with
  | nil => rfl
  | cons y t ih => simp [sortedPy, length_insertAsc, ih]

theorem nodup_sortedPy : ∀ l : List Int, l.Nodup → (sortedPy l).Nodup := by
  intro l
  induction l with
  | nil => intro _; simp [sortedPy]
  | cons y t ih =>
    intro hnd
    rcases List.nodup_cons.mp hnd with ⟨hyt, hndt⟩
    exact nodup_insertAsc y (sortedPy t)
      (fun hy => hyt ((mem_sortedPy t y).mp hy)) (ih hndt)

theorem mem_sortedVars (e : Expr) (v : Int) :
    v ∈ sortedVars e ↔ v ∈ getVariables e := by
  rw [sortedVars, mem_sortedPy, List.mem_dedup, mem_getVariables]

theorem nodup_sortedVars (e : Expr) : (sortedVars e).Nodup :=
  nodup_sortedPy _ (List.nodup_dedup _)

theorem length_sortedVars (e : Expr) :
    (sortedVars e).length = (getVariables e).card := by
  rw [sortedVars, length_sortedPy, getVariables, Finset.card, List.toFinset_val,
    Multiset.coe_card]

theorem length_sortedVars_pos (e : Expr) : 1 ≤ (sortedVars e).length := by
  rcases getVariables_nonempty e with ⟨v, hv⟩
  have : v ∈ sortedVars e := (mem_sortedVars e v).mpr hv
  exact List.length_pos.mpr (List.ne_nil_of_mem this)

/-! ### Lemmas about evaluation -/

theorem lookup_zip_isSome :
    ∀ (l : List Int) (sub : List Bool) (v : Int), v ∈ l → l.length ≤ sub.length →
      (List.lookup v (l.zip sub)).isSome = true := by
  intro l
  induction l with
  | nil => intro sub v hv _; exact absurd hv (List.not_mem_nil v)
  | cons a t ih =>
    intro sub v hv hlen
    match sub with
    | [] => exact absurd hlen (by simp)
    | b :: st =>
      show (List.lookup v ((a, b) :: t.zip st)).isSome = true
      by_cases hva : v = a
      · subst hva
        simp [List.lookup]
      · have hvt : v ∈ t := by
          rcases List.mem_cons.mp hv with rfl | hvt
          · exact absurd rfl hva
          · exact hvt
        have hba : (v == a) = false := beq_eq_false_iff_ne.mpr hva
        simp only [List.lookup, hba, cond_false]
        exact ih st v hvt (Nat.succ_le_succ_iff.mp hlen)

theorem evaluate_ok_of_bindsAll :
    ∀ (e : Expr) (i : Interpretation), bindsAll i e → ∃ b, evaluate e i = .ok b := by
  intro e
  induction e with
  | symbol s =>
    intro i h
    have hs : (List.lookup s (i : List (Int × Bool))).isSome = true :=
      h s (by rw [mem_getVariables]; exact List.mem_cons_self s [])
    rcases Option.isSome_iff_exists.mp hs with ⟨b, hb⟩
    exact ⟨b, by simp only [evaluate, hb]⟩
  | unaryExpr op v ihv =>
    intro i h
    have hv : bindsAll i v := by
      intro x hx
      exact h x (by rw [mem_getVariables] at hx ⊢; exact hx)
    rcases ihv i hv with ⟨b, hb⟩
    cases op
    exact ⟨!b, by simp only [evaluate, hb]; rfl⟩
  | binaryExpr op l r ihl ihr =>
    intro i h
    have hl : bindsAll i l := by
      intro x hx
      refine h x ?_
      rw [mem_getVariables] at hx ⊢
      exact List.mem_append.mpr (Or.inl hx)
    have hr : bindsAll i r := by
      intro x hx
      refine h x ?_
      rw [mem_getVariables] at hx ⊢
      exact List.mem_append.mpr (Or.inr hx)
    rcases ihl i hl with ⟨bl, hbl⟩
    rcases ihr i hr with ⟨br, hbr⟩
    cases op
    · exact ⟨bl && br, by simp only [evaluate, hbl, hbr]; rfl⟩
    · exact ⟨bl || br, by simp only [evaluate, hbl, hbr]; rfl⟩
    · exact ⟨!(bl && !br), by simp only [evaluate, hbl, hbr]; rfl⟩
    · exact ⟨bl == br, by simp only [evaluate, hbl, hbr]; rfl⟩

theorem evaluate_err_of_unbound :
    ∀ (e : Expr) (i : Interpretation),
      (∃ v ∈ getVariables e, List.lookup v (i : List (Int × Bool)) = none) →
      ∃ w, evaluate e i = .error (.keyError w) := by
  intro e
  induction e with
  | symbol s =>
    rintro i ⟨v, hv, hnone⟩
    rw [mem_getVariables] at hv
    rcases List.mem_cons.mp hv with rfl | hv
    · exact ⟨v, by simp [evaluate, hnone]⟩
    · exact absurd hv (List.not_mem_nil v)
  | unaryExpr op v ihv =>
    rintro i ⟨x, hx, hnone⟩
    rw [mem_getVariables] at hx
    rcases ihv i ⟨x, (mem_getVariables v x).mpr hx, hnone⟩ with ⟨w, hw⟩
    cases op
    exact ⟨w, by simp only [evaluate, hw]; rfl⟩
  | binaryExpr op l r ihl ihr =>
    rintro i ⟨x, hx, hnone⟩
    rw [mem_getVariables] at hx
    rcases List.mem_append.mp hx with hxl | hxr
    · rcases ihl i ⟨x, (mem_getVariables l x).mpr hxl, hnone⟩ with ⟨w, hw⟩
      exact ⟨w, by simp only [evaluate, hw]; rfl⟩
    · by_cases hbl : bindsAll i l
      · rcases evaluate_ok_of_bindsAll l i hbl with ⟨bl, hblok⟩
        rcases ihr i ⟨x, (mem_getVariables r x).mpr hxr, hnone⟩ with ⟨w, hw⟩
        exact ⟨w, by simp only [evaluate, hblok, hw]; rfl⟩
      · have : ∃ v ∈ getVariables l, List.lookup v (i : List (Int × Bool)) = none := by
          rcases not_forall.mp hbl with ⟨v, hv⟩
          rcases Classical.not_imp.mp hv with ⟨hvmem, hvns⟩
          exact ⟨v, hvmem, Option.not_isSome_iff_eq_none.mp (by simpa using hvns)⟩
        rcases ihl i this with ⟨w, hw⟩
        exact ⟨w, by simp only [evaluate, hw]; rfl⟩

/-! ### Lemmas about table construction -/

theorem buildData_ok :
    ∀ (e : Expr) (l : List Int) (inputs : List (List Bool)),
      (∀ sub ∈ inputs, ∃ v, evaluate e (l.zip sub) = .ok v) →
      ∃ data, buildData e l inputs = .ok data ∧ data.map Prod.fst = inputs := by
  intro e l inputs
  induction inputs with
  | nil => intro _; exact ⟨[], rfl, rfl⟩
  | cons s t ih =>
    intro h
    rcases h s (List.mem_cons_self s t) with ⟨v, hv⟩
    rcases ih (fun x hx => h x (List.mem_cons_of_mem s hx)) with ⟨d, hd, hmap⟩
    exact ⟨(s, v) :: d, by simp only [buildData, hv, hd]; rfl, by simp [hmap]⟩

/-- Master description of `TruthTable.from_expr`: it always succeeds, its
variable tuple is the sorted variable list, and its row keys are exactly
`get_all_inputs` of the variable count, in order. -/
theorem fromExpr_spec (e : Expr) :
    ∃ data, TruthTable.fromExpr e = .ok ⟨sortedVars e, data⟩ ∧
      data.map Prod.fst = allInputs (sortedVars e).length := by
  rcases Nat.exists_eq_add_of_le (length_sortedVars_pos e) with ⟨k, hk⟩
  rw [Nat.add_comm] at hk
  have hinputs : getAllInputs (sortedVars e).length = .ok (allInputs (sortedVars e).length) := by
    rw [hk]; exact getAllInputs_pos k
  have hOkAll : ∀ sub ∈ allInputs (sortedVars e).length,
      ∃ v, evaluate e ((sortedVars e).zip sub) = .ok v := by
    intro sub hsub
    apply evaluate_ok_of_bindsAll
    intro v hv
    apply lookup_zip_isSome
    · exact (mem_sortedVars e v).mpr hv
    · rw [hk] at hsub
      have hlen : sub.length = k + 1 := (mem_allInputs k sub).mp hsub
      rw [hk, hlen]
  rcases buildData_ok e (sortedVars e) _ hOkAll with ⟨data, hbd, hmap⟩
  refine ⟨data, ?_, hmap⟩
  show (do
    let inputs ← getAllInputs (sortedVars e).length
    let data ← buildData e (sortedVars e) inputs
    Except.ok (⟨sortedVars e, data⟩ : TruthTable)) = _
  rw [hinputs]
  show (do
    let data ← buildData e (sortedVars e) (allInputs (sortedVars e).length)
    Except.ok (⟨sortedVars e, data⟩ : TruthTable)) = _
  rw [hbd]
  rfl

/-! ### Lemmas about the lexer -/

theorem tokChars_classes :
    ∀ l : List Char, (∀ c ∈ l, (pyIsSpace c || isAsciiLetter c || isOpChar c) = true) →
      tokChars l = .ok ((l.filter fun c => !pyIsSpace c).map tokenOfChar) := by
  intro l
  induction l with
  | nil => intro _; rfl
  | cons c t ih =>
    intro h
    have hc := h c (List.mem_cons_self c t)
    have ht := ih fun x hx => h x (List.mem_cons_of_mem c hx)
    by_cases hs : pyIsSpace c
    · simp [tokChars, hs, ht]
    · by_cases hl : isAsciiLetter c
      · simp [tokChars, hs, hl, ht, tokenOfChar]
      · have hop : isOpChar c = true := by
          simp only [hs, hl, Bool.false_or] at hc
          exact hc
        simp [tokChars, hs, hl, hop, ht, tokenOfChar]

/-! ### Claim theorems -/

/-- Claim C1, counterexample: reading the rows of the truth table of `A & B`
as 2-bit numbers with the FIRST (sorted-order) variable as the most
significant bit gives the sequence `[0, 2, 1, 3]`, not the upward count
`0, 1, 2, 3` the claim requires. -/
theorem row_order_msb_counting_refuted :
    (TruthTable.fromExpr (.binaryExpr .conj (.symbol 0) (.symbol 1))).map
        (fun t => (t.data.map Prod.fst).map msbValue) = .ok [0, 2, 1, 3] ∧
      ([0, 2, 1, 3] : List Nat) ≠ List.range (2 ^ 2) :=
  ⟨by decide, by decide⟩

/-- Claim C1, amended: `TruthTable.from_expr` produces its assignment tuples
in the order in which, reading each `k`-tuple as a `k`-bit binary number with
the FIRST sorted variable as the LEAST significant bit, the values count
upward from `0` to `2^k - 1` — that is, the first variable iterates
fastest. -/
theorem fromExpr_row_order_lsb_counting (e : Expr) :
    ∃ t, TruthTable.fromExpr e = .ok t ∧
      (t.data.map Prod.fst).map rowValue = List.range (2 ^ (getVariables e).card) := by
  rcases fromExpr_spec e with ⟨data, hfe, hmap⟩
  refine ⟨_, hfe, ?_⟩
  rw [hmap, ← length_sortedVars e]
  rcases Nat.exists_eq_add_of_le (length_sortedVars_pos e) with ⟨k, hk⟩
  rw [Nat.add_comm] at hk
  rw [hk]
  exact allInputs_map_rowValue k

/-- Claim C2: for every expression with `k` distinct variables the truth
table has exactly `2^k` rows, without duplicates, and its set of assignment
tuples is the full Cartesian product: the boolean `k`-tuples are exactly its
row keys. -/
theorem fromExpr_rows_exactly_all_assignments (e : Expr) :
    ∃ t, TruthTable.fromExpr e = .ok t ∧
      t.data.length = 2 ^ (getVariables e).card ∧
      (t.data.map Prod.fst).Nodup ∧
      ∀ l : List Bool, l ∈ t.data.map Prod.fst ↔ l.length = (getVariables e).card := by
  rcases fromExpr_spec e with ⟨data, hfe, hmap⟩
  rcases Nat.exists_eq_add_of_le (length_sortedVars_pos e) with ⟨k, hk⟩
  rw [Nat.add_comm] at hk
  have hcard : (getVariables e).card = k + 1 := by rw [← length_sortedVars e, hk]
  refine ⟨_, hfe, ?_, ?_, ?_⟩
  · have hlen := congrArg List.length hmap
    rw [List.length_map] at hlen
    rw [hlen, hk, length_allInputs, hcard]
  · rw [hmap, hk]
    exact nodup_allInputs k
  · intro l
    rw [hmap, hk, hcard]
    exact mem_allInputs k l

/-- Claim C3: `Symbol.from_letter` does NOT fail on letters outside `A`-`Z`:
`str.find` returns `-1` (and raises no `IndexError`), so out-of-range input
yields the invalid `Symbol(-1)` instead of the intended `ValueError`; inside
`A`-`Z` (case-insensitively) it yields the alphabetic position. -/
theorem fromLetter_out_of_range_no_failure :
    Symbol.fromLetter "@" = -1 ∧ Symbol.fromLetter "1" = -1 ∧
      Symbol.fromLetter "a" = 0 ∧ Symbol.fromLetter "z" = 25 ∧
      Symbol.fromLetter "A" = 0 ∧ Symbol.fromLetter "Z" = 25 := by
  refine ⟨?_, ?_, ?_, ?_, ?_, ?_⟩ <;> decide

/-- Claim C4, counterexample: the token produced for a lowercase letter
holds the letter exactly as written, not its uppercase canonical form
(uppercasing happens later, in `Symbol.from_letter` during parsing). -/
theorem tokenize_preserves_letter_case :
    tokenize "a" = .ok [Token.mk "symbol" "a"] ∧
      tokenize "a" ≠ .ok [Token.mk "symbol" "A"] :=
  ⟨by decide, by decide⟩

/-- Claim C4, amended: on input made of whitespace, ASCII letters and the
seven operator characters, `tokenize` discards all whitespace and maps every
remaining character to its own token — a `symbol` token holding the letter
as written for a letter, an `op` token for `! & | ~ = ( )`. -/
theorem tokenize_char_classification (s : String)
    (h : ∀ c ∈ s.data, (pyIsSpace c || isAsciiLetter c || isOpChar c) = true) :
    tokenize s = .ok ((s.data.filter fun c => !pyIsSpace c).map tokenOfChar) :=
  tokChars_classes s.data h

/-- Claim C4, witness: a concrete mixed-case input with whitespace. -/
theorem tokenize_char_classification_witness :
    tokenize " a B!( " =
      .ok [Token.mk "symbol" "a", Token.mk "symbol" "B",
        Token.mk "op" "!", Token.mk "op" "("] := by
  rw [tokenize_char_classification " a B!( " (by decide)]
  decide

/-- Claim C5, counterexample: the zero-variable enumeration is rejected by
the core with a `ValueError`, not answered with a single empty assignment. -/
theorem getAllInputs_zero_rejected :
    getAllInputs 0 = .error (.valueError "number of variables must be a positive number") :=
  rfl

/-- Claim C5, amended: no expression has zero variables (every leaf is a
`Symbol`), so `TruthTable.from_expr` never reaches the zero-variable case
and always succeeds; the zero-variable enumeration itself, were it ever
requested, is rejected by `get_all_inputs`. -/
theorem fromExpr_zero_variables_unreachable :
    ∀ e : Expr, (getVariables e).Nonempty ∧ ∃ t, TruthTable.fromExpr e = .ok t := by
  intro e
  refine ⟨getVariables_nonempty e, ?_⟩
  rcases fromExpr_spec e with ⟨data, hfe, _⟩
  exact ⟨_, hfe⟩

/-- Claim C6: the parser respects the precedence order
`=` < `~` < `|` < `&` < `!`: `A | B & C` parses as `A | (B & C)`,
`!A & B` as `(!A) & B`, `A ~ B | C` as `A ~ (B | C)` and
`A = B ~ C` as `A = (B ~ C)`. -/
theorem parse_precedence_order :
    (tokenize "A | B & C" >>= parse) =
        .ok (.binaryExpr .disj (.symbol 0) (.binaryExpr .conj (.symbol 1) (.symbol 2))) ∧
      (tokenize "!A & B" >>= parse) =
        .ok (.binaryExpr .conj (.unaryExpr .bang (.symbol 0)) (.symbol 1)) ∧
      (tokenize "A ~ B | C" >>= parse) =
        .ok (.binaryExpr .cond (.symbol 0) (.binaryExpr .disj (.symbol 1) (.symbol 2))) ∧
      (tokenize "A = B ~ C" >>= parse) =
        .ok (.binaryExpr .iff (.symbol 0) (.binaryExpr .cond (.symbol 1) (.symbol 2))) :=
  ⟨by decide, by decide, by decide, by decide⟩

/-- Claim C7: chains of same-precedence binary operators fold
left-associatively: the fold helper is a left fold, and `A & B & C` parses
as the nested binary tree `(A & B) & C`. -/
theorem parse_left_assoc_fold :
    (∀ (first : Expr) (rest : List (BinaryOp × Expr)),
      toBinaryExpr first rest =
        rest.foldl (fun result oe => Expr.binaryExpr oe.1 result oe.2) first) ∧
      (tokenize "A & B & C" >>= parse) =
        .ok (.binaryExpr .conj (.binaryExpr .conj (.symbol 0) (.symbol 1)) (.symbol 2)) := by
  constructor
  · intro first rest
    induction rest generalizing first with
    | nil => rfl
    | cons p t ih =>
      cases p
      simp only [toBinaryExpr, List.foldl]
      exact ih _
  · decide

/-- Claim C8: under an assignment binding the variables of `a` and `b`, the
material conditional `a ~ b` evaluates exactly as `!a | b`: it is false
precisely when `a` is true and `b` is false. -/
theorem evaluate_matcond_as_not_or (a b : Expr) (i : Interpretation)
    (ha : bindsAll i a) (hb : bindsAll i b) :
    evaluate (.binaryExpr .cond a b) i =
        evaluate (.binaryExpr .disj (.unaryExpr .bang a) b) i ∧
      (evaluate (.binaryExpr .cond a b) i = .ok false ↔
        evaluate a i = .ok true ∧ evaluate b i = .ok false) := by
  rcases evaluate_ok_of_bindsAll a i ha with ⟨va, hva⟩
  rcases evaluate_ok_of_bindsAll b i hb with ⟨vb, hvb⟩
  constructor
  · simp only [evaluate, hva, hvb]
    cases va <;> cases vb <;> rfl
  · simp only [evaluate, hva, hvb]
    cases va <;> cases vb <;> simp

/-- Claim C8, witness: at `a := A`, `b := B`, `{A: true, B: false}`. -/
theorem evaluate_matcond_as_not_or_witness :
    (evaluate (.binaryExpr .cond (.symbol 0) (.symbol 1)) [(0, true), (1, false)] =
        evaluate (.binaryExpr .disj (.unaryExpr .bang (.symbol 0)) (.symbol 1))
          [(0, true), (1, false)]) ∧
      (evaluate (.binaryExpr .cond (.symbol 0) (.symbol 1)) [(0, true), (1, false)] =
          .ok false ↔
        evaluate (.symbol 0) [(0, true), (1, false)] = .ok true ∧
          evaluate (.symbol 1) [(0, true), (1, false)] = .ok false) :=
  evaluate_matcond_as_not_or (.symbol 0) (.symbol 1) [(0, true), (1, false)]
    (by decide) (by decide)

/-- Claim C9: `evaluate` returns a boolean whenever the assignment binds
every variable of the expression, and fails with the unbound-variable
(`KeyError`) error whenever the expression references a variable absent from
the assignment. -/
theorem evaluate_ok_or_unbound_error (e : Expr) (i : Interpretation) :
    (bindsAll i e → ∃ b, evaluate e i = .ok b) ∧
      ((∃ v ∈ getVariables e, List.lookup v (i : List (Int × Bool)) = none) →
        ∃ w, evaluate e i = .error (.keyError w)) :=
  ⟨evaluate_ok_of_bindsAll e i, evaluate_err_of_unbound e i⟩

/-- Claim C9, witness: `A | B` under the complete `{A: true, B: false}` and
under the incomplete `{A: true}`. -/
theorem evaluate_ok_or_unbound_error_witness :
    (∃ b, evaluate (.binaryExpr .disj (.symbol 0) (.symbol 1))
        [(0, true), (1, false)] = .ok b) ∧
      ∃ w, evaluate (.binaryExpr .disj (.symbol 0) (.symbol 1)) [(0, true)] =
        .error (.keyError w) :=
  ⟨(evaluate_ok_or_unbound_error _ _).1 (by decide),
    (evaluate_ok_or_unbound_error _ _).2 ⟨1, by decide, by decide⟩⟩

/-- Claim C10: every expression the parser returns has at least one
variable, so inside `TruthTable.from_expr` the enumeration of
`get_all_inputs` over the sorted variable list never hits the non-positive
error branch and the zipped assignment is complete: table construction
always succeeds. -/
theorem parse_output_truth_table_safe (toks : List Token) (e : Expr)
    (_h : parse toks = .ok e) :
    (getVariables e).Nonempty ∧
      (∃ rows, getAllInputs (sortedVars e).length = .ok rows) ∧
      ∃ t, TruthTable.fromExpr e = .ok t := by
  refine ⟨getVariables_nonempty e, ?_, ?_⟩
  · rcases Nat.exists_eq_add_of_le (length_sortedVars_pos e) with ⟨k, hk⟩
    rw [Nat.add_comm] at hk
    rw [hk]
    exact ⟨_, getAllInputs_pos k⟩
  · rcases fromExpr_spec e with ⟨data, hfe, _⟩
    exact ⟨_, hfe⟩

/-- Claim C10, witness: the parse of the single token `A`. -/
theorem parse_output_truth_table_safe_witness :
    (getVariables (Expr.symbol 0)).Nonempty ∧
      (∃ rows, getAllInputs (sortedVars (Expr.symbol 0)).length = .ok rows) ∧
      ∃ t, TruthTable.fromExpr (Expr.symbol 0) = .ok t :=
  parse_output_truth_table_safe [Token.mk "symbol" "A"] (Expr.symbol 0) (by decide)

end Ppl
